import Mathlib

/-!
# Verification of `scripts/update_manifest.py`

A shallow embedding of the release-manifest updater in Lean 4, together with
theorems settling the specification claims about it.

Conventions of the embedding:
* Python strings are modelled as `List Char` (`Str`), bytes as `Nat` (values
  below 256 in any real file; none of the theorems needs that bound).
* Machine words inside SHA-256 are `Nat` reduced modulo `2^32` at each step.
* The JSON library is modelled by an inductive `Json` value type; `json.loads`
  (which is library code, not part of the repository) appears as an explicit
  `parse : Str → Option Json` parameter of the embedded `main`.
* File systems are association lists from path to content; the first binding
  for a path wins, and writing prepends a binding.
* `print` calls are collected in a `LogLine` trace; `sys.exit(1)` and uncaught
  exceptions are distinct result constructors, and the manifest file is only
  written on the `success` result, mirroring the fact that the script opens
  the manifest for writing only after the whole asset loop has finished.
-/

/-- Python `str` modelled as a list of unicode scalar values. -/
abbrev Str := List Char

/-- Characters matched by the character class `[a-z0-9]` of the pattern in
`get_platform_key`. -/
def isTokChar (c : Char) : Bool :=
  ('a' ≤ c && c ≤ 'z') || ('0' ≤ c && c ≤ '9')

/-- The endings accepted by the tail `(?:\.exe)?$` of the pattern.  In Python,
`$` (without `re.MULTILINE`) matches at the end of the string *or just before a
newline at the end of the string*, so the residue after the third token may be
empty, `".exe"`, a single `"\n"`, or `".exe\n"`. -/
def tailOk (r : Str) : Bool :=
  r = [] || r = ['\n'] || r = ['.', 'e', 'x', 'e'] || r = ['.', 'e', 'x', 'e', '\n']

/-- Third stage of the match: the final token `[a-z0-9]+`, then the anchor. -/
def matchTok3 (t1 t2 r4 : Str) : Option Str :=
  if (r4.span isTokChar).1 = [] then none
  else if tailOk (r4.span isTokChar).2 then
    some (t1 ++ '-' :: t2 ++ '-' :: (r4.span isTokChar).1)
  else none

/-- Second stage of the match: the middle token `[a-z0-9]+` and its hyphen. -/
def matchTok2 (t1 r2 : Str) : Option Str :=
  match r2.span isTokChar with
  | (t2, '-' :: r4) => if t2 = [] then none else matchTok3 t1 t2 r4
  | _ => none

/-- First stage of the match: the first token `[a-z0-9]+` and its hyphen. -/
def matchTok1 (rest : Str) : Option Str :=
  match rest.span isTokChar with
  | (t1, '-' :: r2) => if t1 = [] then none else matchTok2 t1 r2
  | _ => none

/-- Embedding of
`re.match(r"btxz-([a-z0-9]+-[a-z0-9]+-[a-z0-9]+)(?:\.exe)?$", filename)`,
returning `group(1)` on success.  Since `[a-z0-9]` contains neither `-`, `.`
nor `\n`, the regex never backtracks: each token is forced to be the maximal
alphanumeric run, so the match is computed by three `span`s.  The end anchor
is `tailOk` (see there for the `$`-before-trailing-newline rule). -/
def get_platform_key (s : Str) : Option Str :=
  match s with
  | 'b' :: 't' :: 'x' :: 'z' :: '-' :: rest => matchTok1 rest
  | _ => none

/-- The wording of the claim: the filename is exactly
`btxz-<os>-<arch>-<variant>` optionally followed by `.exe`, with the three
tokens non-empty and lowercase-alphanumeric, and the key is the middle part.
(Written from the specification's words, to be compared with the source's
`get_platform_key`.) -/
def claimForm (s : Str) (key : Str) : Prop :=
  ∃ t1 t2 t3 ext,
    t1 ≠ [] ∧ (∀ c ∈ t1, isTokChar c = true) ∧
    t2 ≠ [] ∧ (∀ c ∈ t2, isTokChar c = true) ∧
    t3 ≠ [] ∧ (∀ c ∈ t3, isTokChar c = true) ∧
    (ext = [] ∨ ext = ['.', 'e', 'x', 'e']) ∧
    s = 'b' :: 't' :: 'x' :: 'z' :: '-' :: (t1 ++ '-' :: t2 ++ '-' :: t3 ++ ext) ∧
    key = t1 ++ '-' :: t2 ++ '-' :: t3

/-- The amended form: the same shape, but additionally allowing a single
trailing newline after the optional `.exe` (which Python's `$` anchor
tolerates). -/
def claimFormNL (s : Str) (key : Str) : Prop :=
  ∃ t1 t2 t3 ext nl,
    t1 ≠ [] ∧ (∀ c ∈ t1, isTokChar c = true) ∧
    t2 ≠ [] ∧ (∀ c ∈ t2, isTokChar c = true) ∧
    t3 ≠ [] ∧ (∀ c ∈ t3, isTokChar c = true) ∧
    (ext = [] ∨ ext = ['.', 'e', 'x', 'e']) ∧
    (nl = [] ∨ nl = ['\n']) ∧
    s = 'b' :: 't' :: 'x' :: 'z' :: '-' :: (t1 ++ '-' :: t2 ++ '-' :: t3 ++ ext ++ nl) ∧
    key = t1 ++ '-' :: t2 ++ '-' :: t3

example : get_platform_key ("btxz-linux-amd64-modern".toList) = some ("linux-amd64-modern".toList) := by decide

example : get_platform_key ("btxz-windows-amd64-modern.exe".toList) = some ("windows-amd64-modern".toList) := by decide

example : get_platform_key ("btxz-linux-amd64".toList) = none := by decide

example : get_platform_key ("btxz-linux-amd64-modern-x".toList) = none := by decide

example : get_platform_key ("btxz-linux-amd64-modern\n".toList) = some ("linux-amd64-modern".toList) := by decide

/-- `span` splits an all-token prefix exactly at the first non-token
character. -/
theorem span_token_split (t r : Str) (ht : ∀ c ∈ t, isTokChar c = true)
    (hr : ∀ c cs, r = c :: cs → isTokChar c = false) :
    (t ++ r).span isTokChar = (t, r) := by
  induction t with
  | nil =>
    cases r with
    | nil => rfl
    | cons c cs =>
      simp [List.span_eq_take_drop, List.takeWhile_cons, List.dropWhile_cons, hr c cs rfl]
  | cons a t ih =>
    have ha : isTokChar a = true := ht a (by simp)
    have h2 := ih (fun c hc => ht c (by simp [hc]))
    simp only [List.span_eq_take_drop, Prod.mk.injEq] at h2 ⊢
    simp [List.takeWhile_cons, List.dropWhile_cons, ha, h2.1, h2.2]

theorem get_platform_key_sound (s k : Str) (h : get_platform_key s = some k) :
    claimFormNL s k := by
  unfold get_platform_key at h
  split at h
  case h_2 => exact absurd h (by simp)
  case h_1 rest =>
    unfold matchTok1 at h
    split at h
    case h_2 => exact absurd h (by simp)
    case h_1 t1 r2 hs1 =>
      have hrest : rest = t1 ++ '-' :: r2 := by
        have h0 := List.takeWhile_append_dropWhile (p := isTokChar) (l := rest)
        rw [List.span_eq_take_drop, Prod.mk.injEq] at hs1
        rw [hs1.1, hs1.2] at h0
        exact h0.symm
      have ht1 : ∀ c ∈ t1, isTokChar c = true := by
        rw [List.span_eq_take_drop, Prod.mk.injEq] at hs1
        intro c hc
        rw [← hs1.1] at hc
        exact List.mem_takeWhile_imp hc
      split at h
      case isTrue => exact absurd h (by simp)
      case isFalse ht1ne =>
        unfold matchTok2 at h
        split at h
        case h_2 => exact absurd h (by simp)
        case h_1 t2 r4 hs2 =>
          have hr2 : r2 = t2 ++ '-' :: r4 := by
            have h0 := List.takeWhile_append_dropWhile (p := isTokChar) (l := r2)
            rw [List.span_eq_take_drop, Prod.mk.injEq] at hs2
            rw [hs2.1, hs2.2] at h0
            exact h0.symm
          have ht2 : ∀ c ∈ t2, isTokChar c = true := by
            rw [List.span_eq_take_drop, Prod.mk.injEq] at hs2
            intro c hc
            rw [← hs2.1] at hc
            exact List.mem_takeWhile_imp hc
          split at h
          case isTrue => exact absurd h (by simp)
          case isFalse ht2ne =>
            unfold matchTok3 at h
            rcases hs3 : r4.span isTokChar with ⟨t3, r5⟩
            rw [hs3] at h
            simp only at h
            have hr4 : r4 = t3 ++ r5 := by
              have h0 := List.takeWhile_append_dropWhile (p := isTokChar) (l := r4)
              rw [List.span_eq_take_drop, Prod.mk.injEq] at hs3
              rw [hs3.1, hs3.2] at h0
              exact h0.symm
            have ht3 : ∀ c ∈ t3, isTokChar c = true := by
              rw [List.span_eq_take_drop, Prod.mk.injEq] at hs3
              intro c hc
              rw [← hs3.1] at hc
              exact List.mem_takeWhile_imp hc
            split at h
            case isTrue => exact absurd h (by simp)
            case isFalse ht3ne =>
              split at h
              case isFalse => exact absurd h (by simp)
              case isTrue htail =>
                have hk : k = t1 ++ '-' :: t2 ++ '-' :: t3 := by
                  exact (Option.some.injEq _ _ ▸ h).symm
                -- split the accepted tail into extension and newline parts
                have h4 : (r5 = [] ∨ r5 = ['\n']) ∨
                    (r5 = ['.', 'e', 'x', 'e'] ∨ r5 = ['.', 'e', 'x', 'e', '\n']) := by
                  unfold tailOk at htail
                  simp only [Bool.or_eq_true, decide_eq_true_eq] at htail
                  tauto
                rcases h4 with (h5 | h5) | (h5 | h5)
                · exact ⟨t1, t2, t3, [], [], ht1ne, ht1, ht2ne, ht2, ht3ne, ht3,
                    Or.inl rfl, Or.inl rfl, by simp [hrest, hr2, hr4, h5], hk⟩
                · exact ⟨t1, t2, t3, [], ['\n'], ht1ne, ht1, ht2ne, ht2, ht3ne, ht3,
                    Or.inl rfl, Or.inr rfl, by simp [hrest, hr2, hr4, h5], hk⟩
                · exact ⟨t1, t2, t3, ['.', 'e', 'x', 'e'], [], ht1ne, ht1, ht2ne, ht2,
                    ht3ne, ht3, Or.inr rfl, Or.inl rfl, by simp [hrest, hr2, hr4, h5], hk⟩
                · exact ⟨t1, t2, t3, ['.', 'e', 'x', 'e'], ['\n'], ht1ne, ht1, ht2ne, ht2,
                    ht3ne, ht3, Or.inr rfl, Or.inr rfl, by simp [hrest, hr2, hr4, h5], hk⟩

theorem get_platform_key_eq (rest : Str) :
    get_platform_key ('b' :: 't' :: 'x' :: 'z' :: '-' :: rest) = matchTok1 rest := rfl

theorem matchTok1_eq (rest t1 r2 : Str) (h : rest.span isTokChar = (t1, '-' :: r2)) :
    matchTok1 rest = if t1 = [] then none else matchTok2 t1 r2 := by
  unfold matchTok1
  rw [h]
  rfl

theorem matchTok2_eq (t1 r2 t2 r4 : Str) (h : r2.span isTokChar = (t2, '-' :: r4)) :
    matchTok2 t1 r2 = if t2 = [] then none else matchTok3 t1 t2 r4 := by
  unfold matchTok2
  rw [h]
  rfl

theorem get_platform_key_complete (s k : Str) (h : claimFormNL s k) :
    get_platform_key s = some k := by
  obtain ⟨t1, t2, t3, ext, nl, h1ne, h1, h2ne, h2, h3ne, h3, hext, hnl, hs, hk⟩ := h
  have hdash : ∀ (c : Char) (cs : Str), ('-' :: (t2 ++ '-' :: (t3 ++ (ext ++ nl)))) = c :: cs →
      isTokChar c = false := by
    intro c cs hc
    injection hc with hc1 _
    rw [← hc1]
    decide
  have hdash2 : ∀ (c : Char) (cs : Str), ('-' :: (t3 ++ (ext ++ nl))) = c :: cs →
      isTokChar c = false := by
    intro c cs hc
    injection hc with hc1 _
    rw [← hc1]
    decide
  have htail3 : ∀ (c : Char) (cs : Str), (ext ++ nl) = c :: cs → isTokChar c = false := by
    rcases hext with rfl | rfl <;> rcases hnl with rfl | rfl <;>
      intro c cs hc <;>
      (try simp only [List.nil_append, List.append_nil, List.cons_append] at hc)
    · exact absurd hc (by simp)
    · injection hc with hc1 _
      rw [← hc1]
      decide
    · injection hc with hc1 _
      rw [← hc1]
      decide
    · injection hc with hc1 _
      rw [← hc1]
      decide
  have hsp1 := span_token_split t1 ('-' :: (t2 ++ '-' :: (t3 ++ (ext ++ nl)))) h1 hdash
  have hsp2 := span_token_split t2 ('-' :: (t3 ++ (ext ++ nl))) h2 hdash2
  have hsp3 := span_token_split t3 (ext ++ nl) h3 htail3
  have htailok : tailOk (ext ++ nl) = true := by
    rcases hext with rfl | rfl <;> rcases hnl with rfl | rfl <;> decide
  subst hs hk
  have hshape : t1 ++ '-' :: t2 ++ '-' :: t3 ++ ext ++ nl
      = t1 ++ '-' :: (t2 ++ '-' :: (t3 ++ (ext ++ nl))) := by
    simp
  rw [hshape, get_platform_key_eq, matchTok1_eq _ _ _ hsp1, if_neg h1ne,
    matchTok2_eq _ _ _ _ hsp2, if_neg h2ne]
  unfold matchTok3
  rw [hsp3]
  simp only
  rw [if_neg h3ne, if_pos htailok]

/-- Any filename of the claimed form (without the newline allowance) ends in
a token character or in the `'e'` of `.exe`; in particular it never ends in a
newline. -/
theorem claimForm_last (s k : Str) (h : claimForm s k) :
    ∃ c, s.getLast? = some c ∧ (isTokChar c = true ∨ c = 'e') := by
  obtain ⟨t1, t2, t3, ext, h1ne, h1, h2ne, h2, h3ne, h3, hext, hs, -⟩ := h
  rcases hext with rfl | rfl
  · rcases List.eq_nil_or_concat t3 with rfl | ⟨l3, c, rfl⟩
    · exact absurd rfl h3ne
    · refine ⟨c, ?_, Or.inl (h3 c (by simp))⟩
      rw [show s = ('b' :: 't' :: 'x' :: 'z' :: '-' ::
          (t1 ++ '-' :: t2 ++ '-' :: l3)) ++ [c] by rw [hs]; simp]
      exact List.getLast?_concat _
  · refine ⟨'e', ?_, Or.inr rfl⟩
    rw [show s = ('b' :: 't' :: 'x' :: 'z' :: '-' ::
        (t1 ++ '-' :: t2 ++ '-' :: t3 ++ ['.', 'e', 'x'])) ++ ['e'] by rw [hs]; simp]
    exact List.getLast?_concat _

/-- C1, counterexample: the filename `"btxz-linux-amd64-modern\n"` is *not* of
the claimed form `btxz-<os>-<arch>-<variant>[.exe]` (its last character is a
newline), yet `get_platform_key` returns a key for it rather than `None`,
because Python's `$` anchor also matches just before a trailing newline.  This
falsifies the "for every filename not of that form, returns no match" half of
the claim. -/
theorem get_platform_key_claim_cex :
    get_platform_key ("btxz-linux-amd64-modern\n".toList)
      = some ("linux-amd64-modern".toList)
    ∧ ∀ k, ¬ claimForm ("btxz-linux-amd64-modern\n".toList) k := by
  refine ⟨by decide, ?_⟩
  intro k hk
  obtain ⟨c, hlast, hc⟩ := claimForm_last _ k hk
  have he : ("btxz-linux-amd64-modern\n".toList).getLast? = some '\n' := by decide
  rw [he] at hlast
  have hcn : c = '\n' := by
    injection hlast with h0
    exact h0.symm
  rw [hcn] at hc
  rcases hc with hc | hc
  · exact absurd hc (by decide)
  · exact absurd hc (by decide)

/-- C1 (amended): `get_platform_key` returns `some key` exactly for the
filenames of the form `btxz-<os>-<arch>-<variant>`, optionally followed by
`.exe`, *optionally followed by a single trailing newline* (tolerated by
Python's `$` anchor), with `<os>`, `<arch>`, `<variant>` non-empty
lowercase-alphanumeric tokens and `key = <os>-<arch>-<variant>`; for every
other filename it returns `None`. -/
theorem get_platform_key_spec (s k : Str) :
    get_platform_key s = some k ↔ claimFormNL s k :=
  ⟨get_platform_key_sound s k, get_platform_key_complete s k⟩

/-! ## SHA-256 (the reference hash behind `hashlib.sha256`)

`compute_sha256` streams the file through `hashlib.sha256`, which implements
FIPS 180-4 SHA-256.  The reference function is implemented here over byte
lists (`List Nat`), with 32-bit words as `Nat` reduced modulo `2 ^ 32`. -/

/-- The sixteen lowercase hexadecimal digits. -/
def hexDigits : List Char := "0123456789abcdef".toList

/-- Hex digit of the low nibble of `n`. -/
def nibble (n : Nat) : Char :=
  hexDigits.get ⟨n % 16, Nat.mod_lt n (by decide)⟩

/-- Lowercase hex encoding, two digits per byte. -/
def hexOf : List Nat → List Char
  | [] => []
  | b :: t => nibble (b / 16) :: nibble b :: hexOf t

/-- Right rotation of a 32-bit word. -/
def rotr (n x : Nat) : Nat := ((x >>> n) ||| (x <<< (32 - n))) % 2 ^ 32

def bigSigma0 (x : Nat) : Nat := rotr 2 x ^^^ rotr 13 x ^^^ rotr 22 x

def bigSigma1 (x : Nat) : Nat := rotr 6 x ^^^ rotr 11 x ^^^ rotr 25 x

def smallSigma0 (x : Nat) : Nat := rotr 7 x ^^^ rotr 18 x ^^^ (x >>> 3)

def smallSigma1 (x : Nat) : Nat := rotr 17 x ^^^ rotr 19 x ^^^ (x >>> 10)

def chFn (e f g : Nat) : Nat := (e &&& f) ^^^ ((e ^^^ 0xffffffff) &&& g)

def majFn (a b c : Nat) : Nat := (a &&& b) ^^^ (a &&& c) ^^^ (b &&& c)

/-- The SHA-256 round constants. -/
def K256 : List Nat :=
  [1116352408, 1899447441, 3049323471, 3921009573, 961987163, 1508970993,
   2453635748, 2870763221, 3624381080, 310598401, 607225278, 1426881987,
   1925078388, 2162078206, 2614888103, 3248222580, 3835390401, 4022224774,
   264347078, 604807628, 770255983, 1249150122, 1555081692, 1996064986,
   2554220882, 2821834349, 2952996808, 3210313671, 3336571891, 3584528711,
   113926993, 338241895, 666307205, 773529912, 1294757372, 1396182291,
   1695183700, 1986661051, 2177026350, 2456956037, 2730485921, 2820302411,
   3259730800, 3345764771, 3516065817, 3600352804, 4094571909, 275423344,
   430227734, 506948616, 659060556, 883997877, 958139571, 1322822218,
   1537002063, 1747873779, 1955562222, 2024104815, 2227730452, 2361852424,
   2428436474, 2756734187, 3204031479, 3329325298]

/-- The eight working words of the compression state. -/
structure H8 where
  a : Nat
  b : Nat
  c : Nat
  d : Nat
  e : Nat
  f : Nat
  g : Nat
  h : Nat

/-- Initial SHA-256 state. -/
def initH : H8 :=
  ⟨1779033703, 3144134277, 1013904242, 2773480762, 1359893119, 2600822924, 528734635, 1541459225⟩

/-- One compression round, fed a `(K[t], W[t])` pair. -/
def roundStep (st : H8) (kw : Nat × Nat) : H8 :=
  let t1 := (st.h + bigSigma1 st.e + chFn st.e st.f st.g + kw.1 + kw.2) % 2 ^ 32
  let t2 := (bigSigma0 st.a + majFn st.a st.b st.c) % 2 ^ 32
  ⟨(t1 + t2) % 2 ^ 32, st.a, st.b, st.c, (st.d + t1) % 2 ^ 32, st.e, st.f, st.g⟩

/-- Big-endian 32-bit words from a block of bytes. -/
def wordsOfBytes : List Nat → List Nat
  | b0 :: b1 :: b2 :: b3 :: t => (((b0 * 256 + b1) * 256 + b2) * 256 + b3) % 2 ^ 32 :: wordsOfBytes t
  | _ => []

/-- Message-schedule extension: appends one word `n` times. -/
def extendW : Nat → List Nat → List Nat
  | 0, w => w
  | n + 1, w =>
    let t := w.length
    extendW n (w ++ [(smallSigma1 (w.getD (t - 2) 0) + w.getD (t - 7) 0 +
      smallSigma0 (w.getD (t - 15) 0) + w.getD (t - 16) 0) % 2 ^ 32])

/-- The 64-word message schedule of a 64-byte block. -/
def schedule (block : List Nat) : List Nat := extendW 48 (wordsOfBytes block)

/-- Compression of one 64-byte block into the running state. -/
def compress (st : H8) (block : List Nat) : H8 :=
  let fin := (K256.zip (schedule block)).foldl roundStep st
  ⟨(st.a + fin.a) % 2 ^ 32, (st.b + fin.b) % 2 ^ 32, (st.c + fin.c) % 2 ^ 32,
   (st.d + fin.d) % 2 ^ 32, (st.e + fin.e) % 2 ^ 32, (st.f + fin.f) % 2 ^ 32,
   (st.g + fin.g) % 2 ^ 32, (st.h + fin.h) % 2 ^ 32⟩

/-- Big-endian 8-byte encoding of the bit length. -/
def beBytes8 (n : Nat) : List Nat :=
  [n / 2 ^ 56 % 256, n / 2 ^ 48 % 256, n / 2 ^ 40 % 256, n / 2 ^ 32 % 256,
   n / 2 ^ 24 % 256, n / 2 ^ 16 % 256, n / 2 ^ 8 % 256, n % 256]

/-- FIPS 180-4 padding: `0x80`, zeros to 56 mod 64, then the 64-bit length. -/
def padMsg (l : List Nat) : List Nat :=
  l ++ 0x80 :: (List.replicate ((64 - (l.length + 9) % 64) % 64) 0 ++ beBytes8 (l.length * 8))

/-- Fixed-size chunking, structurally recursive on a fuel argument so that it
evaluates by kernel reduction.  Each step takes the next `n` elements; the
fuel is initialised to the list length and (for `0 < n`) is never exhausted. -/
def chunksGo (n : Nat) : Nat → List Nat → List (List Nat)
  | _, [] => []
  | 0, _ :: _ => []
  | fuel + 1, a :: t => ((a :: t).take n) :: chunksGo n fuel ((a :: t).drop n)

/-- 64-byte blocks of the padded message. -/
def chunks64 (l : List Nat) : List (List Nat) := chunksGo 64 l.length l

/-- Big-endian bytes of the final state. -/
def digestBytes (st : H8) : List Nat :=
  [st.a / 2 ^ 24 % 256, st.a / 2 ^ 16 % 256, st.a / 2 ^ 8 % 256, st.a % 256,
   st.b / 2 ^ 24 % 256, st.b / 2 ^ 16 % 256, st.b / 2 ^ 8 % 256, st.b % 256,
   st.c / 2 ^ 24 % 256, st.c / 2 ^ 16 % 256, st.c / 2 ^ 8 % 256, st.c % 256,
   st.d / 2 ^ 24 % 256, st.d / 2 ^ 16 % 256, st.d / 2 ^ 8 % 256, st.d % 256,
   st.e / 2 ^ 24 % 256, st.e / 2 ^ 16 % 256, st.e / 2 ^ 8 % 256, st.e % 256,
   st.f / 2 ^ 24 % 256, st.f / 2 ^ 16 % 256, st.f / 2 ^ 8 % 256, st.f % 256,
   st.g / 2 ^ 24 % 256, st.g / 2 ^ 16 % 256, st.g / 2 ^ 8 % 256, st.g % 256,
   st.h / 2 ^ 24 % 256, st.h / 2 ^ 16 % 256, st.h / 2 ^ 8 % 256, st.h % 256]

/-- SHA-256 digest (32 bytes) of a byte sequence. -/
def sha256bytes (msg : List Nat) : List Nat :=
  digestBytes ((chunks64 (padMsg msg)).foldl compress initH)

/-- SHA-256 digest as a lowercase hexadecimal string. -/
def sha256hex (msg : List Nat) : List Char := hexOf (sha256bytes msg)

/-- The two NIST test vectors, checked by kernel evaluation: the reference
implementation above is genuine SHA-256. -/
example : sha256hex [] = "e3b0c44298fc1c149afbf4c8996fb92427ae41e4649b934ca495991b7852b855".toList := by decide

example : sha256hex [97, 98, 99] = "ba7816bf8f01cfea414140de5dae2223b00361a396177a9cb410ff61f20015ad".toList := by decide

/-! ## `compute_sha256` -/

/-- The 4096-byte chunks produced by `iter(lambda: f.read(4096), b"")`. -/
def chunks4096 (l : List Nat) : List (List Nat) := chunksGo 4096 l.length l

/-- Model of `hashlib`'s `.update`: the accumulator is the byte sequence
absorbed so far, and `update` appends the new block to it. -/
def shaUpdate (acc : List Nat) (byteBlock : List Nat) : List Nat := acc ++ byteBlock

/-- Model of `hashlib`'s `.hexdigest`: SHA-256 of the absorbed bytes, in
lowercase hex. -/
def shaHexdigest (acc : List Nat) : List Char := sha256hex acc

/-- Embedding of `compute_sha256`: stream the file content in 4096-byte
chunks through the hash accumulator, then return the hex digest.  (The
file-existence check lives at the call site in `main`, as in the source.) -/
def compute_sha256 (fileBytes : List Nat) : List Char :=
  shaHexdigest ((chunks4096 fileBytes).foldl shaUpdate [])

theorem chunksGo_join (n : Nat) (hn : 0 < n) :
    ∀ (fuel : Nat) (l : List Nat), l.length ≤ fuel → (chunksGo n fuel l).flatten = l := by
  intro fuel
  induction fuel with
  | zero =>
    intro l hl
    cases l with
    | nil => rfl
    | cons a t => exact absurd hl (by simp)
  | succ fuel ih =>
    intro l hl
    cases l with
    | nil => rfl
    | cons a t =>
      have hlen : ((a :: t).drop n).length ≤ fuel := by
        rw [List.length_drop]
        simp only [List.length_cons] at hl ⊢
        omega
      simp only [chunksGo, List.flatten_cons, ih _ hlen]
      exact List.take_append_drop n (a :: t)

theorem chunks4096_join (l : List Nat) : (chunks4096 l).flatten = l :=
  chunksGo_join 4096 (by decide) l.length l le_rfl

theorem foldl_shaUpdate (cs : List (List Nat)) (acc : List Nat) :
    cs.foldl shaUpdate acc = acc ++ cs.flatten := by
  induction cs generalizing acc with
  | nil => simp
  | cons c cs ih => simp [shaUpdate, List.foldl_cons, ih]

theorem chunksGo_sizes (n : Nat) (hn : 0 < n) :
    ∀ (fuel : Nat) (l : List Nat) (c : List Nat), c ∈ chunksGo n fuel l →
      c ≠ [] ∧ c.length ≤ n := by
  intro fuel
  induction fuel with
  | zero =>
    intro l c hc
    cases l <;> simp [chunksGo] at hc
  | succ fuel ih =>
    intro l c hc
    cases l with
    | nil => simp [chunksGo] at hc
    | cons a t =>
      simp only [chunksGo, List.mem_cons] at hc
      rcases hc with rfl | hc
      · constructor
        · cases n with
          | zero => exact absurd hn (by decide)
          | succ m => simp [List.take_cons]
        · exact List.length_take_le n (a :: t)
      · exact ih _ c hc

theorem nibble_mem (n : Nat) : nibble n ∈ hexDigits := List.get_mem _ _ _

theorem hexOf_mem (bs : List Nat) : ∀ c ∈ hexOf bs, c ∈ hexDigits := by
  induction bs with
  | nil => simp [hexOf]
  | cons b t ih =>
    intro c hc
    simp only [hexOf, List.mem_cons] at hc
    rcases hc with rfl | rfl | hc
    · exact nibble_mem _
    · exact nibble_mem _
    · exact ih c hc

theorem hexOf_length (bs : List Nat) : (hexOf bs).length = 2 * bs.length := by
  induction bs with
  | nil => simp [hexOf]
  | cons b t ih => simp [hexOf, ih]; omega

/-- C3: for every file content, `compute_sha256` (which streams the file in
4096-byte chunks through the hash accumulator) returns exactly the reference
SHA-256 digest of the file's bytes; the digest is a 64-character string made
only of lowercase hexadecimal digits; and every chunk fed to the accumulator
is non-empty and at most 4096 bytes long. -/
theorem compute_sha256_correct (fileBytes : List Nat) :
    compute_sha256 fileBytes = sha256hex fileBytes
    ∧ (compute_sha256 fileBytes).length = 64
    ∧ (∀ c ∈ compute_sha256 fileBytes, c ∈ hexDigits)
    ∧ (∀ c ∈ chunks4096 fileBytes, c ≠ [] ∧ c.length ≤ 4096) := by
  have heq : compute_sha256 fileBytes = sha256hex fileBytes := by
    unfold compute_sha256 shaHexdigest
    rw [foldl_shaUpdate, List.nil_append, chunks4096_join]
  refine ⟨heq, ?_, ?_, ?_⟩
  · rw [heq]
    unfold sha256hex
    rw [hexOf_length]
    rfl
  · rw [heq]
    exact hexOf_mem _
  · intro c hc
    exact chunksGo_sizes 4096 (by decide) _ _ c hc

/-! ## JSON values and the `json.dump(manifest, f, indent=4)` serializer

JSON numbers are modelled as integers; the manifest and assets data of this
repository contain no fractional numbers, and no claim depends on float
round-tripping. -/

inductive Json where
  | null
  | bool (value : Bool)
  | num (value : Int)
  | str (value : Str)
  | arr (items : List Json)
  | obj (entries : List (Str × Json))

/-- `n` spaces, the building block of `indent=4` pretty-printing. -/
def nSpaces (n : Nat) : Str := List.replicate n ' '

/-- Four hex digits, for `\uXXXX` escapes. -/
def hex4 (n : Nat) : Str := [nibble (n / 4096), nibble (n / 256), nibble (n / 16), nibble n]

/-- Escape of one character, as in Python's `json` with `ensure_ascii=True`:
quote and backslash escaped, the named control escapes, `\uXXXX` for other
characters outside `0x20..0x7e`, surrogate pairs above the BMP. -/
def escChar (c : Char) : Str :=
  if c = '"' then ['\\', '"']
  else if c = '\\' then ['\\', '\\']
  else if c = '\x08' then ['\\', 'b']
  else if c = '\x09' then ['\\', 't']
  else if c = '\x0a' then ['\\', 'n']
  else if c = '\x0c' then ['\\', 'f']
  else if c = '\x0d' then ['\\', 'r']
  else if c.toNat < 0x20 ∨ (0x7f ≤ c.toNat ∧ c.toNat < 0x10000) then '\\' :: 'u' :: hex4 c.toNat
  else if 0x10000 ≤ c.toNat then
    '\\' :: 'u' :: hex4 (0xd800 + (c.toNat - 0x10000) / 0x400) ++
      ('\\' :: 'u' :: hex4 (0xdc00 + (c.toNat - 0x10000) % 0x400))
  else [c]

/-- JSON string literal: quoted, characters escaped. -/
def dumpStr (s : Str) : Str := '"' :: (s.flatMap escChar ++ ['"'])

/-- Decimal digits of a natural number; the fuel (initialised to `n + 1`,
which always suffices) keeps the recursion structural so that it evaluates by
kernel reduction. -/
def natDigsGo : Nat → Nat → Str
  | 0, _ => []
  | fuel + 1, n => if n < 10 then [nibble n] else natDigsGo fuel (n / 10) ++ [nibble (n % 10)]

def natDigs (n : Nat) : Str := natDigsGo (n + 1) n

/-- Python's decimal rendering of an integer. -/
def intStr (i : Int) : Str := if i < 0 then '-' :: natDigs i.natAbs else natDigs i.toNat

mutual

/-- `json.dump(·, f, indent=4)`: `null`/`true`/`false`, decimal numbers,
escaped strings, and containers opened on their own line with items indented
four more spaces, separated by `",\n"`, closed at the enclosing indent.
Empty containers are printed inline. -/
def dumpJ (ind : Nat) : Json → Str
  | .null => "null".toList
  | .bool true => "true".toList
  | .bool false => "false".toList
  | .num i => intStr i
  | .str s => dumpStr s
  | .arr [] => ['[', ']']
  | .arr (x :: xs) =>
    '[' :: '\n' :: (dumpArrItems (ind + 4) (x :: xs) ++ '\n' :: (nSpaces ind ++ [']']))
  | .obj [] => ['\x7b', '\x7d']
  | .obj (f :: fs) =>
    '\x7b' :: '\n' :: (dumpObjItems (ind + 4) (f :: fs) ++ '\n' :: (nSpaces ind ++ ['\x7d']))

def dumpArrItems (ind : Nat) : List Json → Str
  | [] => []
  | [x] => nSpaces ind ++ dumpJ ind x
  | x :: y :: t => nSpaces ind ++ dumpJ ind x ++ ',' :: '\n' :: dumpArrItems ind (y :: t)

def dumpObjItems (ind : Nat) : List (Str × Json) → Str
  | [] => []
  | [f] => nSpaces ind ++ dumpStr f.1 ++ ':' :: ' ' :: dumpJ ind f.2
  | f :: g :: t =>
    nSpaces ind ++ dumpStr f.1 ++ ':' :: ' ' :: dumpJ ind f.2 ++ ',' :: '\n' ::
      dumpObjItems ind (g :: t)

end

/-- The serialized manifest text produced by `json.dump(manifest, f, indent=4)`
(at top level, indent 0). -/
def pyDumps (j : Json) : Str := dumpJ 0 j

/-- The bytes left in the manifest file by a successful run:
`json.dump(manifest, f, indent=4)` followed by `f.write('\n')`. -/
def fileContent (m : Json) : Str := pyDumps m ++ ['\n']

/-! ## The embedded `main` -/

/-- First-match association-list lookup (Python dictionaries never hold
duplicate keys, so on values coming from `json.loads` this is exact). -/
def alookup {α : Type} : List (Str × α) → Str → Option α
  | [], _ => none
  | e :: t, k => if e.1 = k then some e.2 else alookup t k

/-- Key membership, as in Python's `'platforms' in manifest`. -/
def hasKey {α : Type} (l : List (Str × α)) (k : Str) : Bool := (alookup l k).isSome

/-- Python dictionary assignment `d[k] = v`: replaces the value in place when
the key is present (keeping its position), otherwise appends the new binding. -/
def upsertJ {α : Type} (l : List (Str × α)) (k : Str) (v : α) : List (Str × α) :=
  if hasKey l k then l.map (fun e => if e.1 = k then (k, v) else e) else l ++ [(k, v)]

/-- The utility-file filter of the asset loop:
`filename.endswith(".txt"/".sh"/".ps1") or filename == "version.json"`. -/
def isUtility (f : Str) : Bool :=
  ['.', 't', 'x', 't'].isSuffixOf f || ['.', 's', 'h'].isSuffixOf f ||
  ['.', 'p', 's', '1'].isSuffixOf f || f = "version.json".toList

/-- `os.path.join(artifacts_dir, filename)` on POSIX. -/
def pjoin (d f : Str) : Str :=
  if f.head? = some '/' then f
  else if d = [] then f
  else if d.getLast? = some '/' then d ++ f
  else d ++ '/' :: f

/-- The string constants of the script. -/
def platformsKey : Str := "platforms".toList

def versionKey : Str := "version".toList

def nameKey : Str := "name".toList

def urlKey : Str := "browser_download_url".toList

def urlField : Str := "url".toList

def shaField : Str := "sha256".toList

/-- One `print` line of the script, abstracted by constructor. -/
inductive LogLine where
  | usage
  | decodeError
  | updating (version : Option Json)
  | skipUtility (filename : Str)
  | skipNoMatch (filename : Str)
  | warnMissing (localPath : Str)
  | processed (filename : Str) (key : Str)
  | summary (count : Nat)

/-- The uncaught exceptions the script can die of. -/
inductive CrashKind where
  | indexError
  | fileNotFound
  | jsonError
  | typeError
  | keyError

/-- Outcome of a run.  `exit1` is `sys.exit(1)`; `crash` is an uncaught
exception (nonzero process exit); only `success` writes the manifest file,
whose new content is `fileContent manifest` at path `path`. -/
inductive PyResult where
  | exit1 (log : List LogLine)
  | crash (kind : CrashKind) (log : List LogLine)
  | success (log : List LogLine) (path : Str) (manifest : Json) (count : Nat)

/-- What one iteration of the asset loop does, as a function of the asset,
the artifacts directory and the artifact files alone. -/
inductive AssetAction where
  | crash (kind : CrashKind)
  | skip (line : LogLine)
  | put (key : Str) (entry : Json) (line : LogLine) (countsAsBinary : Bool)

/-- Classification of one asset, following the loop body line by line:
`asset['name']` (KeyError when absent), `asset['browser_download_url']`
(KeyError), the utility-file filter (`filename` must be a string for
`.endswith`), `get_platform_key`, `os.path.join` + `os.path.exists`, and the
checksum with its `print`; the manifest entry is `{"url": ..., "sha256": ...}`
with the empty-string checksum when the local file is missing. -/
def classifyAsset (bfs : List (Str × List Nat)) (artifactsDir : Str) (asset : Json) :
    AssetAction :=
  match asset with
  | .obj fields =>
    match alookup fields nameKey with
    | none => .crash .keyError
    | some nameJ =>
      match alookup fields urlKey with
      | none => .crash .keyError
      | some url =>
        match nameJ with
        | .str filename =>
          if isUtility filename then .skip (.skipUtility filename)
          else
            match get_platform_key filename with
            | none => .skip (.skipNoMatch filename)
            | some key =>
              match alookup bfs (pjoin artifactsDir filename) with
              | none => .put key (.obj [(urlField, url), (shaField, .str [])])
                  (.warnMissing (pjoin artifactsDir filename)) false
              | some fileBytes => .put key (.obj [(urlField, url),
                  (shaField, .str (compute_sha256 fileBytes))])
                  (.processed filename key) true
        | _ => .crash .typeError
  | _ => .crash .typeError

/-- The mutable state of the asset loop: the `manifest['platforms']` value,
the `count` of hashed binaries, and the `print` trace so far. -/
structure LoopSt where
  platforms : Json
  count : Nat
  log : List LogLine

/-- One iteration of the asset loop.  A `put` into a non-object `platforms`
value is the `TypeError` of `manifest['platforms'][key] = ...`; its log keeps
the line printed just before the failing assignment. -/
def assetStep (bfs : List (Str × List Nat)) (artifactsDir : Str) (st : LoopSt) (asset : Json) :
    Except (CrashKind × List LogLine) LoopSt :=
  match classifyAsset bfs artifactsDir asset with
  | .crash k => .error (k, st.log)
  | .skip line => .ok ⟨st.platforms, st.count, st.log ++ [line]⟩
  | .put key entry line inc =>
    match st.platforms with
    | .obj p => .ok ⟨.obj (upsertJ p key entry), st.count + (if inc then 1 else 0),
        st.log ++ [line]⟩
    | _ => .error (.typeError, st.log ++ [line])

/-- The asset loop. -/
def runAssets (bfs : List (Str × List Nat)) (artifactsDir : Str) :
    List Json → LoopSt → Except (CrashKind × List LogLine) LoopSt
  | [], st => .ok st
  | a :: rest, st =>
    match assetStep bfs artifactsDir st a with
    | .error e => .error e
    | .ok st1 => runAssets bfs artifactsDir rest st1

/-- The values over which `for asset in assets` iterates without an immediate
`TypeError`.  A JSON array iterates its elements.  An empty object or empty
string iterates nothing (Python would iterate keys resp. characters, but the
first such element — a string — dies of `TypeError` at `asset['name']`, which
for the non-empty cases is reported through the `none` branch of the caller). -/
def assetsListOf : Json → Option (List Json)
  | .arr l => some l
  | .obj [] => some []
  | .str [] => some []
  | _ => none

/-- `if 'platforms' not in manifest: manifest['platforms'] = {}`. -/
def ensureP (fields : List (Str × Json)) : List (Str × Json) :=
  if hasKey fields platformsKey then fields else fields ++ [(platformsKey, Json.obj [])]

/-- Embedding of `main()`.  Parameters: `parse` models `json.loads`
(returning `none` on a `JSONDecodeError`), `argv` is `sys.argv` (the script
name first), `tfs` the text files (for the manifest), `bfs` the binary files
(for artifacts).  The steps follow the source order: the argument-count
check, the three `sys.argv` reads (`IndexError` when only two user arguments
are given), decoding the assets string, opening and decoding the manifest
(uncaught exceptions), ensuring `platforms`, the asset loop, and the final
write of `fileContent` at `version_file`. -/
def pymain (parse : Str → Option Json) (argv : List Str)
    (tfs : List (Str × Str)) (bfs : List (Str × List Nat)) : PyResult :=
  if argv.length < 3 then .exit1 [.usage]
  else
    match argv[1]?, argv[2]?, argv[3]? with
    | some versionFile, some assetsJsonStr, some artifactsDir =>
      match parse assetsJsonStr with
      | none => .exit1 [.decodeError]
      | some assetsJ =>
        match alookup tfs versionFile with
        | none => .crash .fileNotFound []
        | some content =>
          match parse content with
          | none => .crash .jsonError []
          | some manifest =>
            match manifest with
            | .obj fields =>
              match assetsListOf assetsJ with
              | none => .crash .typeError [.updating (alookup fields versionKey)]
              | some assets =>
                match runAssets bfs artifactsDir assets
                    ⟨(alookup (ensureP fields) platformsKey).getD (Json.obj []), 0,
                      [.updating (alookup fields versionKey)]⟩ with
                | .error (k, lg) => .crash k lg
                | .ok st => .success (st.log ++ [.summary st.count]) versionFile
                    (.obj (upsertJ (ensureP fields) platformsKey st.platforms)) st.count
            | _ => .crash .typeError []
    | _, _, _ => .crash .indexError []

/-- The manifest file write performed by a run: `none` when the run never
reaches the write, otherwise the target path and the full new file content. -/
def resultFile : PyResult → Option (Str × Str)
  | .success _ p m _ => some (p, fileContent m)
  | _ => none

/-! ## Error-path claims -/

/-- C5, code evaluated at the failing input: invoked with exactly two user
arguments (`sys.argv` of length 3, e.g. a manifest path and an assets string
but no artifacts directory) the script passes its `len(sys.argv) < 3` guard
without printing the usage message and then dies of an uncaught `IndexError`
at `sys.argv[3]`; only with fewer than two user arguments does the usage path
run.  The guard contradicts the script's own usage line, which names three
required inputs. -/
theorem pymain_arity_bug :
    pymain (fun _ => none)
      ["update_manifest.py".toList, "manifest.json".toList, "[]".toList] [] []
      = .crash .indexError []
    ∧ pymain (fun _ => none) ["update_manifest.py".toList, "manifest.json".toList] [] []
      = .exit1 [.usage] := by
  constructor
  · rfl
  · rfl

/-- C6: whenever the assets JSON string (the second user argument) fails to
decode, the run reports the decode error and stops with `sys.exit(1)` before
the manifest file is read or written: the result is `exit1`, which performs
no file write, and its log shows only the decode-error report. -/
theorem pymain_assets_decode_error (parse : Str → Option Json) (a0 vf aj ad : Str)
    (r : List Str) (tfs : List (Str × Str)) (bfs : List (Str × List Nat))
    (h : parse aj = none) :
    pymain parse (a0 :: vf :: aj :: ad :: r) tfs bfs = .exit1 [.decodeError] := by
  simp [pymain, h]

/-- C6 witness. -/
theorem pymain_assets_decode_error_witness :
    pymain (fun _ => none)
      ["update_manifest.py".toList, "v.json".toList, "not json".toList, "dist".toList] [] []
      = .exit1 [.decodeError] :=
  pymain_assets_decode_error (fun _ => none) _ _ _ _ [] [] [] rfl

/-- C10: when the manifest file exists but its content does not decode as
JSON, the run dies of the uncaught `json.JSONDecodeError` (nonzero process
exit) before the manifest file is ever opened for writing: the result is a
`crash`, which performs no file write, so the manifest file keeps its old
content. -/
theorem pymain_manifest_decode_crash (parse : Str → Option Json) (a0 vf aj ad : Str)
    (r : List Str) (tfs : List (Str × Str)) (bfs : List (Str × List Nat))
    (assetsJ : Json) (content : Str)
    (h1 : parse aj = some assetsJ)
    (h2 : alookup tfs vf = some content)
    (h3 : parse content = none) :
    pymain parse (a0 :: vf :: aj :: ad :: r) tfs bfs = .crash .jsonError [] := by
  simp [pymain, h1, h2, h3]

/-- C10 witness. -/
theorem pymain_manifest_decode_crash_witness :
    pymain (fun s => if s = "[]".toList then some (.arr []) else none)
      ["update_manifest.py".toList, "v.json".toList, "[]".toList, "dist".toList]
      [("v.json".toList, "oops".toList)] []
      = .crash .jsonError [] :=
  pymain_manifest_decode_crash _ _ _ _ _ [] _ [] (.arr []) ("oops".toList)
    rfl rfl rfl

/-! ## The asset-loop claims -/

/-- C7: an asset whose filename ends in `.txt`, `.sh` or `.ps1`, or equals
`version.json`, is dispatched on the utility filter alone — the `skip` happens
for any state and leaves `platforms` untouched (no entry is added), one
skipped-utility line is printed, and the loop simply continues with the
remaining assets.  `classifyAsset` consults `get_platform_key` only in the
`else` branch of the filter, so no pattern matching is attempted. -/
theorem utility_files_skipped (bfs : List (Str × List Nat)) (ad f : Str) (u : Json)
    (st : LoopSt) (rest : List Json) (hut : isUtility f = true) :
    assetStep bfs ad st (.obj [(nameKey, .str f), (urlKey, u)])
      = .ok ⟨st.platforms, st.count, st.log ++ [.skipUtility f]⟩
    ∧ runAssets bfs ad ((Json.obj [(nameKey, .str f), (urlKey, u)]) :: rest) st
      = runAssets bfs ad rest ⟨st.platforms, st.count, st.log ++ [.skipUtility f]⟩ := by
  have hstep : assetStep bfs ad st (.obj [(nameKey, .str f), (urlKey, u)])
      = .ok ⟨st.platforms, st.count, st.log ++ [.skipUtility f]⟩ := by
    simp +decide [assetStep, classifyAsset, alookup, nameKey, urlKey, hut]
  refine ⟨hstep, ?_⟩
  rw [runAssets, hstep]

/-- C7 witness: `sha256sums.txt` is skipped as a utility file. -/
theorem utility_files_skipped_witness :
    isUtility ("sha256sums.txt".toList) = true
    ∧ assetStep [] ("dist".toList) ⟨.obj [], 0, []⟩
        (.obj [(nameKey, .str ("sha256sums.txt".toList)), (urlKey, .str ("u".toList))])
      = .ok ⟨.obj [], 0, [.skipUtility ("sha256sums.txt".toList)]⟩ :=
  ⟨by decide, (utility_files_skipped [] ("dist".toList) ("sha256sums.txt".toList)
    (.str ("u".toList)) ⟨.obj [], 0, []⟩ [] (by decide)).1⟩

/-- C4: an asset whose filename classifies to platform key `key` but whose
file is absent from the artifacts directory is processed without aborting the
run: the step prints the missing-file warning, upserts the manifest entry
`{"url": <download url>, "sha256": ""}` for `key`, does not increment the
binary count, and the loop continues with the remaining assets (so a run
whose other steps succeed still exits 0). -/
theorem missing_artifact_entry (bfs : List (Str × List Nat)) (ad f key : Str) (u : Json)
    (p : List (Str × Json)) (cnt : Nat) (lg : List LogLine) (rest : List Json)
    (hut : isUtility f = false)
    (hk : get_platform_key f = some key)
    (hmiss : alookup bfs (pjoin ad f) = none) :
    assetStep bfs ad ⟨.obj p, cnt, lg⟩ (.obj [(nameKey, .str f), (urlKey, u)])
      = .ok ⟨.obj (upsertJ p key (.obj [(urlField, u), (shaField, .str [])])), cnt,
          lg ++ [.warnMissing (pjoin ad f)]⟩
    ∧ runAssets bfs ad ((Json.obj [(nameKey, .str f), (urlKey, u)]) :: rest) ⟨.obj p, cnt, lg⟩
      = runAssets bfs ad rest
          ⟨.obj (upsertJ p key (.obj [(urlField, u), (shaField, .str [])])), cnt,
            lg ++ [.warnMissing (pjoin ad f)]⟩ := by
  have hstep : assetStep bfs ad ⟨.obj p, cnt, lg⟩ (.obj [(nameKey, .str f), (urlKey, u)])
      = .ok ⟨.obj (upsertJ p key (.obj [(urlField, u), (shaField, .str [])])), cnt,
          lg ++ [.warnMissing (pjoin ad f)]⟩ := by
    simp +decide [assetStep, classifyAsset, alookup, nameKey, urlKey, hut, hk, hmiss]
  refine ⟨hstep, ?_⟩
  rw [runAssets, hstep]

/-- C4 witness: `btxz-linux-amd64-modern` named in the assets but absent from
the artifacts directory. -/
theorem missing_artifact_entry_witness :
    isUtility ("btxz-linux-amd64-modern".toList) = false
    ∧ get_platform_key ("btxz-linux-amd64-modern".toList) = some ("linux-amd64-modern".toList)
    ∧ assetStep [] ("dist".toList) ⟨.obj [], 0, []⟩
        (.obj [(nameKey, .str ("btxz-linux-amd64-modern".toList)), (urlKey, .str ("u".toList))])
      = .ok ⟨.obj (upsertJ [] ("linux-amd64-modern".toList)
            (.obj [(urlField, .str ("u".toList)), (shaField, .str [])])), 0,
          [.warnMissing (pjoin ("dist".toList) ("btxz-linux-amd64-modern".toList))]⟩ :=
  ⟨by decide, by decide,
    (missing_artifact_entry [] ("dist".toList) ("btxz-linux-amd64-modern".toList)
      ("linux-amd64-modern".toList) (.str ("u".toList)) [] 0 [] [] (by decide) (by decide)
      (by decide)).1⟩

/-! ## Association-list theory for dictionary upserts

`upsertJ` is Python's `d[k] = v`.  The idempotence claim needs: applying the
same sequence of upserts twice gives the same list as applying it once. -/

/-- The keys of an association list, in order. -/
def keysOf {α : Type} (l : List (Str × α)) : List Str := l.map Prod.fst

/-- A single in-place substitution: entries with key `k` get value `v`. -/
def subst1 {α : Type} (k : Str) (v : α) (e : Str × α) : Str × α :=
  if e.1 = k then (k, v) else e

/-- The last value assigned to `x` by the upsert sequence `us`. -/
def lastValIn {α : Type} (us : List (Str × α)) (x : Str) : Option α :=
  us.foldl (fun acc e => if e.1 = x then some e.2 else acc) none

/-- The in-place effect on one entry of running the whole upsert sequence. -/
def substLast {α : Type} (us : List (Str × α)) (e : Str × α) : Str × α :=
  match lastValIn us e.1 with
  | some v => (e.1, v)
  | none => e

/-- A sequence of dictionary assignments, first to last. -/
def applyU {α : Type} (P : List (Str × α)) (us : List (Str × α)) : List (Str × α) :=
  us.foldl (fun q e => upsertJ q e.1 e.2) P

theorem lastValIn_nil {α : Type} (x : Str) : lastValIn ([] : List (Str × α)) x = none := rfl

theorem foldl_lastVal {α : Type} (us : List (Str × α)) (x : Str) (a : Option α) :
    us.foldl (fun acc e => if e.1 = x then some e.2 else acc) a = (lastValIn us x).or a := by
  induction us generalizing a with
  | nil => simp [lastValIn]
  | cons e us ih =>
    show us.foldl _ (if e.1 = x then some e.2 else a) = _
    rw [ih]
    have hcons : lastValIn (e :: us) x
        = (lastValIn us x).or (if e.1 = x then some e.2 else none) := by
      show us.foldl _ (if e.1 = x then some e.2 else none) = _
      rw [ih]
    rw [hcons, Option.or_assoc]
    by_cases h : e.1 = x <;> simp [h]

theorem lastValIn_cons {α : Type} (e : Str × α) (us : List (Str × α)) (x : Str) :
    lastValIn (e :: us) x = (lastValIn us x).or (if e.1 = x then some e.2 else none) := by
  show us.foldl _ (if e.1 = x then some e.2 else none) = _
  rw [foldl_lastVal]

theorem lastValIn_append_single {α : Type} (us : List (Str × α)) (k : Str) (v : α) (x : Str) :
    lastValIn (us ++ [(k, v)]) x = if k = x then some v else lastValIn us x := by
  show (us ++ [(k, v)]).foldl _ none = _
  rw [List.foldl_append]
  show (if k = x then some v else us.foldl _ none) = _
  by_cases h : k = x <;> simp [h, lastValIn]

theorem substLast_nil {α : Type} (e : Str × α) : substLast [] e = e := rfl

theorem substLast_cons {α : Type} (k : Str) (v : α) (us : List (Str × α)) (e : Str × α) :
    substLast ((k, v) :: us) e = substLast us (subst1 k v e) := by
  by_cases h : e.1 = k
  · have hsub : subst1 k v e = (k, v) := by
      unfold subst1
      rw [if_pos h]
    cases hl : lastValIn us k with
    | some w =>
      have hL : lastValIn ((k, v) :: us) e.1 = some w := by
        rw [lastValIn_cons, h, if_pos rfl, hl]
        rfl
      unfold substLast
      rw [hL, hsub]
      simp only
      rw [hl, h]
    | none =>
      have hL : lastValIn ((k, v) :: us) e.1 = some v := by
        rw [lastValIn_cons, h, if_pos rfl, hl]
        rfl
      unfold substLast
      rw [hL, hsub]
      simp only
      rw [hl, h]
  · have hsub : subst1 k v e = e := by
      unfold subst1
      rw [if_neg h]
    have hL : lastValIn ((k, v) :: us) e.1 = lastValIn us e.1 := by
      rw [lastValIn_cons, if_neg (fun h2 => h h2.symm)]
      exact Option.or_none
    unfold substLast
    rw [hL, hsub]

theorem hasKey_cons {α : Type} (e : Str × α) (t : List (Str × α)) (k : Str) :
    hasKey (e :: t) k = (if e.1 = k then true else hasKey t k) := by
  show (if e.1 = k then some e.2 else alookup t k).isSome = _
  by_cases h : e.1 = k
  · rw [if_pos h, if_pos h]
    rfl
  · rw [if_neg h, if_neg h]
    rfl

theorem hasKey_iff_mem {α : Type} (l : List (Str × α)) (k : Str) :
    hasKey l k = true ↔ k ∈ keysOf l := by
  induction l with
  | nil =>
    show (none : Option α).isSome = true ↔ k ∈ ([] : List Str)
    simp
  | cons e t ih =>
    rw [hasKey_cons]
    show _ ↔ k ∈ e.1 :: keysOf t
    by_cases h : e.1 = k
    · rw [if_pos h, List.mem_cons]
      constructor
      · intro _
        exact Or.inl h.symm
      · intro _
        rfl
    · rw [if_neg h, List.mem_cons]
      constructor
      · intro hh
        exact Or.inr (ih.1 hh)
      · intro hh
        rcases hh with hh | hh
        · exact absurd hh.symm h
        · exact ih.2 hh

theorem keysOf_map_subst1 {α : Type} (P : List (Str × α)) (k : Str) (v : α) :
    keysOf (P.map (subst1 k v)) = keysOf P := by
  unfold keysOf
  rw [List.map_map]
  apply List.map_congr_left
  intro e _
  show (subst1 k v e).1 = e.1
  unfold subst1
  by_cases h : e.1 = k
  · rw [if_pos h, h]
  · rw [if_neg h]

theorem upsert_inplace {α : Type} (P : List (Str × α)) (k : Str) (v : α)
    (h : k ∈ keysOf P) : upsertJ P k v = P.map (subst1 k v) := by
  unfold upsertJ
  rw [if_pos ((hasKey_iff_mem P k).2 h)]
  rfl

theorem upsert_append {α : Type} (P : List (Str × α)) (k : Str) (v : α)
    (h : ¬ k ∈ keysOf P) : upsertJ P k v = P ++ [(k, v)] := by
  unfold upsertJ
  rw [if_neg (fun h2 => h ((hasKey_iff_mem P k).1 h2))]

theorem keysOf_upsert {α : Type} (P : List (Str × α)) (k : Str) (v : α) (x : Str) :
    x ∈ keysOf (upsertJ P k v) ↔ x ∈ keysOf P ∨ x = k := by
  by_cases h : k ∈ keysOf P
  · rw [upsert_inplace P k v h, keysOf_map_subst1]
    constructor
    · exact Or.inl
    · rintro (hx | rfl)
      · exact hx
      · exact h
  · rw [upsert_append P k v h]
    unfold keysOf
    rw [List.map_append, List.mem_append]
    constructor
    · rintro (hx | hx)
      · exact Or.inl hx
      · exact Or.inr (by simpa using hx)
    · rintro (hx | rfl)
      · exact Or.inl hx
      · exact Or.inr (by simp)

theorem applyU_nil {α : Type} (P : List (Str × α)) : applyU P [] = P := rfl

theorem applyU_cons {α : Type} (P : List (Str × α)) (k : Str) (v : α) (us : List (Str × α)) :
    applyU P ((k, v) :: us) = applyU (upsertJ P k v) us := rfl

theorem applyU_append_single {α : Type} (P : List (Str × α)) (us : List (Str × α))
    (k : Str) (v : α) : applyU P (us ++ [(k, v)]) = upsertJ (applyU P us) k v := by
  unfold applyU
  rw [List.foldl_append]
  rfl

theorem applyU_keys_mono {α : Type} (us : List (Str × α)) (P : List (Str × α)) (x : Str)
    (h : x ∈ keysOf P) : x ∈ keysOf (applyU P us) := by
  induction us generalizing P with
  | nil => exact h
  | cons e us ih =>
    rw [show e = (e.1, e.2) from rfl, applyU_cons]
    exact ih _ ((keysOf_upsert P e.1 e.2 x).2 (Or.inl h))

theorem applyU_keys_of_mem {α : Type} (us : List (Str × α)) (P : List (Str × α))
    (e : Str × α) (h : e ∈ us) : e.1 ∈ keysOf (applyU P us) := by
  induction us generalizing P with
  | nil => exact absurd h (by simp)
  | cons u us ih =>
    rw [show u = (u.1, u.2) from rfl, applyU_cons]
    rcases List.mem_cons.1 h with rfl | h2
    · exact applyU_keys_mono us _ _ ((keysOf_upsert P e.1 e.2 e.1).2 (Or.inr rfl))
    · exact ih _ h2

theorem mem_upsert_cases {α : Type} (P : List (Str × α)) (k : Str) (v : α) (e : Str × α)
    (h : e ∈ upsertJ P k v) :
    e = (k, v) ∨ (e ∈ P ∧ e.1 ≠ k) := by
  by_cases hk : k ∈ keysOf P
  · rw [upsert_inplace P k v hk] at h
    obtain ⟨e0, he0, rfl⟩ := List.mem_map.1 h
    unfold subst1
    by_cases h0 : e0.1 = k
    · rw [if_pos h0]
      exact Or.inl rfl
    · rw [if_neg h0]
      exact Or.inr ⟨he0, h0⟩
  · rw [upsert_append P k v hk] at h
    rcases List.mem_append.1 h with h2 | h2
    · refine Or.inr ⟨h2, fun he => hk ?_⟩
      rw [← he]
      exact List.mem_map.2 ⟨e, h2, rfl⟩
    · exact Or.inl (by simpa using h2)

/-- Every entry of `applyU P us` is a fixpoint of `substLast us`: it already
carries the last value the upsert sequence assigns to its key. -/
theorem applyU_substLast_fix {α : Type} (us : List (Str × α)) (P : List (Str × α)) :
    ∀ e ∈ applyU P us, substLast us e = e := by
  induction us using List.reverseRecOn generalizing P with
  | nil =>
    intro e _
    exact substLast_nil e
  | append_singleton us u ih =>
    intro e he
    rw [show u = (u.1, u.2) from rfl, applyU_append_single] at he
    rcases mem_upsert_cases _ _ _ _ he with rfl | ⟨heQ, hne⟩
    · unfold substLast
      rw [lastValIn_append_single, if_pos rfl]
    · unfold substLast
      rw [lastValIn_append_single, if_neg (fun h2 => hne h2.symm)]
      exact ih P e heQ

/-- When every upserted key is already present, the upsert sequence acts as a
pure in-place map by `substLast`. -/
theorem applyU_eq_map_substLast {α : Type} (us : List (Str × α)) (P : List (Str × α))
    (h : ∀ e ∈ us, e.1 ∈ keysOf P) :
    applyU P us = P.map (substLast us) := by
  induction us generalizing P with
  | nil =>
    rw [applyU_nil, show substLast ([] : List (Str × α)) = id from funext substLast_nil,
      List.map_id]
  | cons u us ih =>
    rw [show u = (u.1, u.2) from rfl, applyU_cons,
      upsert_inplace P u.1 u.2 (h u (List.mem_cons_self u us)),
      ih _ (fun e he => by
        rw [keysOf_map_subst1]
        exact h e (List.mem_cons_of_mem u he)),
      List.map_map]
    apply List.map_congr_left
    intro e _
    show substLast us (subst1 u.1 u.2 e) = substLast ((u.1, u.2) :: us) e
    exact (substLast_cons u.1 u.2 us e).symm

theorem map_fix_eq_self {α : Type} (f : α → α) (l : List α) (h : ∀ x ∈ l, f x = x) :
    l.map f = l := by
  induction l with
  | nil => rfl
  | cons a t ih =>
    rw [List.map_cons, h a (List.mem_cons_self a t), ih (fun x hx => h x (List.mem_cons_of_mem a hx))]

/-- Idempotence of a dictionary-assignment sequence: running the same upserts
a second time changes nothing. -/
theorem applyU_idem {α : Type} (P us : List (Str × α)) :
    applyU (applyU P us) us = applyU P us := by
  rw [applyU_eq_map_substLast us (applyU P us) (fun e he => applyU_keys_of_mem us P e he)]
  exact map_fix_eq_self _ _ (applyU_substLast_fix us P)

/-- `d[k] = v` twice is `d[k] = v` once. -/
theorem upsert_idem {α : Type} (F : List (Str × α)) (k : Str) (v : α) :
    upsertJ (upsertJ F k v) k v = upsertJ F k v :=
  applyU_idem F [(k, v)]

theorem alookup_upsert_self {α : Type} (F : List (Str × α)) (k : Str) (v : α) :
    alookup (upsertJ F k v) k = some v := by
  by_cases hk : k ∈ keysOf F
  · rw [upsert_inplace F k v hk]
    induction F with
    | nil => exact absurd hk (by simp [keysOf])
    | cons e t ih =>
      by_cases h : e.1 = k
      · show alookup (subst1 k v e :: t.map (subst1 k v)) k = some v
        unfold subst1
        rw [if_pos h]
        show (if k = k then some v else _) = some v
        rw [if_pos rfl]
      · have hk2 : k ∈ keysOf t := by
          rcases List.mem_cons.1 hk with h2 | h2
          · exact absurd h2.symm h
          · exact h2
        show alookup (subst1 k v e :: t.map (subst1 k v)) k = some v
        unfold subst1
        rw [if_neg h]
        show (if e.1 = k then some e.2 else alookup (t.map (subst1 k v)) k) = some v
        rw [if_neg h]
        exact ih hk2
  · rw [upsert_append F k v hk]
    induction F with
    | nil =>
      show (if k = k then some v else none) = some v
      rw [if_pos rfl]
    | cons e t ih =>
      have h : e.1 ≠ k := fun h2 =>
        hk (show k ∈ e.1 :: keysOf t from List.mem_cons.2 (Or.inl h2.symm))
      have hk2 : ¬ k ∈ keysOf t := fun h2 =>
        hk (show k ∈ e.1 :: keysOf t from List.mem_cons.2 (Or.inr h2))
      show (if e.1 = k then some e.2 else alookup (t ++ [(k, v)]) k) = some v
      rw [if_neg h]
      exact ih hk2

theorem hasKey_upsert_self {α : Type} (F : List (Str × α)) (k : Str) (v : α) :
    hasKey (upsertJ F k v) k = true := by
  show (alookup (upsertJ F k v) k).isSome = true
  rw [alookup_upsert_self]
  rfl

/-! ## Characterisation of the asset loop -/

/-- The `(key, entry)` a classified asset upserts, if any. -/
def actionPut : AssetAction → Option (Str × Json)
  | .put k e _ _ => some (k, e)
  | _ => none

/-- The line a classified asset prints, if it does not crash. -/
def actionLine : AssetAction → Option LogLine
  | .crash _ => none
  | .skip line => some line
  | .put _ _ line _ => some line

/-- The contribution of a classified asset to `count`. -/
def actionInc : AssetAction → Nat
  | .put _ _ _ true => 1
  | _ => 0

def isCrashA : AssetAction → Bool
  | .crash _ => true
  | _ => false

/-- The upserts performed by the loop over `assets`, in order. -/
def putsOf (bfs : List (Str × List Nat)) (ad : Str) (assets : List Json) :
    List (Str × Json) :=
  assets.filterMap (fun a => actionPut (classifyAsset bfs ad a))

/-- The lines printed by the loop over `assets`. -/
def linesOf (bfs : List (Str × List Nat)) (ad : Str) (assets : List Json) : List LogLine :=
  assets.filterMap (fun a => actionLine (classifyAsset bfs ad a))

/-- The total `count` contribution of the loop over `assets`. -/
def incsOf (bfs : List (Str × List Nat)) (ad : Str) (assets : List Json) : Nat :=
  (assets.map (fun a => actionInc (classifyAsset bfs ad a))).sum

/-- Evaluation of the loop from an object `platforms`, absent crashes: it
performs exactly the upserts `putsOf`, adds `incsOf` to the count and appends
`linesOf` to the log. -/
theorem runAssets_eval (bfs : List (Str × List Nat)) (ad : Str) (assets : List Json)
    (P : List (Str × Json)) (c : Nat) (lg : List LogLine)
    (h : ∀ a ∈ assets, isCrashA (classifyAsset bfs ad a) = false) :
    runAssets bfs ad assets ⟨.obj P, c, lg⟩
      = .ok ⟨.obj (applyU P (putsOf bfs ad assets)), c + incsOf bfs ad assets,
          lg ++ linesOf bfs ad assets⟩ := by
  induction assets generalizing P c lg with
  | nil => simp [runAssets, putsOf, linesOf, incsOf, applyU_nil]
  | cons a rest ih =>
    have ha := h a (List.mem_cons_self a rest)
    have hrest := fun b hb => h b (List.mem_cons_of_mem a hb)
    cases hc : classifyAsset bfs ad a with
    | crash k =>
      rw [hc] at ha
      exact absurd ha (by simp [isCrashA])
    | skip line =>
      have hstep : assetStep bfs ad ⟨.obj P, c, lg⟩ a = .ok ⟨.obj P, c, lg ++ [line]⟩ := by
        unfold assetStep
        rw [hc]
      rw [runAssets, hstep]
      show runAssets bfs ad rest ⟨.obj P, c, lg ++ [line]⟩ = _
      rw [ih _ _ _ hrest]
      have hp : putsOf bfs ad (a :: rest) = putsOf bfs ad rest := by
        simp [putsOf, List.filterMap_cons, hc, actionPut]
      have hl : linesOf bfs ad (a :: rest) = line :: linesOf bfs ad rest := by
        simp [linesOf, List.filterMap_cons, hc, actionLine]
      have hi : incsOf bfs ad (a :: rest) = incsOf bfs ad rest := by
        simp [incsOf, List.map_cons, hc, actionInc]
      rw [hp, hl, hi]
      simp [List.append_assoc]
    | put k e line inc =>
      have hstep : assetStep bfs ad ⟨.obj P, c, lg⟩ a
          = .ok ⟨.obj (upsertJ P k e), c + (if inc then 1 else 0), lg ++ [line]⟩ := by
        unfold assetStep
        rw [hc]
      rw [runAssets, hstep]
      show runAssets bfs ad rest ⟨.obj (upsertJ P k e), c + (if inc then 1 else 0), lg ++ [line]⟩
        = _
      rw [ih _ _ _ hrest]
      have hp : putsOf bfs ad (a :: rest) = (k, e) :: putsOf bfs ad rest := by
        simp [putsOf, List.filterMap_cons, hc, actionPut]
      have hl : linesOf bfs ad (a :: rest) = line :: linesOf bfs ad rest := by
        simp [linesOf, List.filterMap_cons, hc, actionLine]
      have hi : incsOf bfs ad (a :: rest) = (if inc then 1 else 0) + incsOf bfs ad rest := by
        cases inc <;> simp [incsOf, List.map_cons, hc, actionInc]
      rw [hp, hl, hi, applyU_cons]
      simp [Nat.add_assoc, List.append_assoc]

/-- Inversion: a loop that finished without an exception met no crashing
asset. -/
theorem runAssets_no_crash (bfs : List (Str × List Nat)) (ad : Str) (assets : List Json)
    (st st' : LoopSt) (h : runAssets bfs ad assets st = .ok st') :
    ∀ a ∈ assets, isCrashA (classifyAsset bfs ad a) = false := by
  induction assets generalizing st with
  | nil => simp
  | cons a rest ih =>
    intro b hb
    cases hstep : assetStep bfs ad st a with
    | error e =>
      rw [runAssets, hstep] at h
      exact absurd h (by simp)
    | ok st1 =>
      rw [runAssets, hstep] at h
      rcases List.mem_cons.1 hb with rfl | hb2
      · cases hc : classifyAsset bfs ad b with
        | crash k =>
          unfold assetStep at hstep
          rw [hc] at hstep
          exact absurd hstep (by simp)
        | skip line => rfl
        | put k e line inc => rfl
      · exact ih st1 h b hb2

/-- Inversion for a non-object `platforms` value: the loop can only finish if
it performs no upsert at all, leaving `platforms` and `count` unchanged. -/
theorem runAssets_nonobj (bfs : List (Str × List Nat)) (ad : Str) (assets : List Json)
    (pj : Json) (c : Nat) (lg : List LogLine) (st' : LoopSt)
    (hno : ∀ fl, pj ≠ .obj fl)
    (h : runAssets bfs ad assets ⟨pj, c, lg⟩ = .ok st') :
    st' = ⟨pj, c, lg ++ linesOf bfs ad assets⟩ ∧ putsOf bfs ad assets = [] := by
  induction assets generalizing c lg with
  | nil =>
    rw [runAssets] at h
    have h2 : st' = ⟨pj, c, lg⟩ := by
      injection h with h3
      exact h3.symm
    refine ⟨?_, rfl⟩
    rw [h2]
    simp [linesOf]
  | cons a rest ih =>
    cases hc : classifyAsset bfs ad a with
    | crash k =>
      have hstep : assetStep bfs ad ⟨pj, c, lg⟩ a = .error (k, lg) := by
        unfold assetStep
        rw [hc]
      rw [runAssets, hstep] at h
      exact absurd h (by simp)
    | skip line =>
      have hstep : assetStep bfs ad ⟨pj, c, lg⟩ a = .ok ⟨pj, c, lg ++ [line]⟩ := by
        unfold assetStep
        rw [hc]
      rw [runAssets, hstep] at h
      replace h : runAssets bfs ad rest ⟨pj, c, lg ++ [line]⟩ = .ok st' := h
      obtain ⟨h1, h2⟩ := ih _ _ h
      refine ⟨?_, ?_⟩
      · rw [h1]
        have hl : linesOf bfs ad (a :: rest) = line :: linesOf bfs ad rest := by
          simp [linesOf, List.filterMap_cons, hc, actionLine]
        rw [hl]
        simp [List.append_assoc]
      · have hpp : putsOf bfs ad (a :: rest) = putsOf bfs ad rest := by
          simp [putsOf, List.filterMap_cons, hc, actionPut]
        rw [hpp]
        exact h2
    | put k e line inc =>
      have hstep : assetStep bfs ad ⟨pj, c, lg⟩ a = .error (.typeError, lg ++ [line]) := by
        unfold assetStep
        rw [hc]
        cases pj with
        | obj fl => exact absurd rfl (hno fl)
        | null => rfl
        | bool b => rfl
        | num n => rfl
        | str s => rfl
        | arr xs => rfl
      rw [runAssets, hstep] at h
      exact absurd h (by simp)

/-- A crash-free loop that performs no upsert finishes with `platforms` and
`count` unchanged, whatever `platforms` is. -/
theorem runAssets_no_puts (bfs : List (Str × List Nat)) (ad : Str) (assets : List Json)
    (pj : Json) (c : Nat) (lg : List LogLine)
    (hnc : ∀ a ∈ assets, isCrashA (classifyAsset bfs ad a) = false)
    (hnp : putsOf bfs ad assets = []) :
    runAssets bfs ad assets ⟨pj, c, lg⟩ = .ok ⟨pj, c, lg ++ linesOf bfs ad assets⟩ := by
  induction assets generalizing lg with
  | nil => simp [runAssets, linesOf]
  | cons a rest ih =>
    cases hc : classifyAsset bfs ad a with
    | crash k =>
      have := hnc a (List.mem_cons_self a rest)
      rw [hc] at this
      exact absurd this (by simp [isCrashA])
    | put k e line inc =>
      have : putsOf bfs ad (a :: rest) = (k, e) :: putsOf bfs ad rest := by
        simp [putsOf, List.filterMap_cons, hc, actionPut]
      rw [this] at hnp
      exact absurd hnp (by simp)
    | skip line =>
      have hstep : assetStep bfs ad ⟨pj, c, lg⟩ a = .ok ⟨pj, c, lg ++ [line]⟩ := by
        unfold assetStep
        rw [hc]
      rw [runAssets, hstep]
      show runAssets bfs ad rest ⟨pj, c, lg ++ [line]⟩ = _
      have hnp2 : putsOf bfs ad rest = [] := by
        have : putsOf bfs ad (a :: rest) = putsOf bfs ad rest := by
          simp [putsOf, List.filterMap_cons, hc, actionPut]
        rw [← this]
        exact hnp
      rw [ih _ (fun b hb => hnc b (List.mem_cons_of_mem a hb)) hnp2]
      have hl : linesOf bfs ad (a :: rest) = line :: linesOf bfs ad rest := by
        simp [linesOf, List.filterMap_cons, hc, actionLine]
      rw [hl]
      simp [List.append_assoc]

/-- Inversion of a successful run: the shape of everything `main` computed. -/
theorem pymain_success_inv (parse : Str → Option Json) (a0 vf aj ad : Str) (r : List Str)
    (tfs : List (Str × Str)) (bfs : List (Str × List Nat))
    (log : List LogLine) (p : Str) (m : Json) (n : Nat)
    (h : pymain parse (a0 :: vf :: aj :: ad :: r) tfs bfs = .success log p m n) :
    ∃ assetsJ content fields assets st,
      parse aj = some assetsJ
      ∧ alookup tfs vf = some content
      ∧ parse content = some (.obj fields)
      ∧ assetsListOf assetsJ = some assets
      ∧ runAssets bfs ad assets
          ⟨(alookup (ensureP fields) platformsKey).getD (.obj []), 0,
            [.updating (alookup fields versionKey)]⟩ = .ok st
      ∧ p = vf ∧ m = .obj (upsertJ (ensureP fields) platformsKey st.platforms)
      ∧ n = st.count ∧ log = st.log ++ [.summary st.count] := by
  unfold pymain at h
  rw [if_neg (by simp)] at h
  simp only [List.getElem?_cons_zero, List.getElem?_cons_succ] at h
  split at h
  case h_1 => exact absurd h (by simp)
  case h_2 assetsJ haj =>
    split at h
    case h_1 => exact absurd h (by simp)
    case h_2 content hcontent =>
      split at h
      case h_1 => exact absurd h (by simp)
      case h_2 manifest hmanifest =>
        split at h
        case h_2 => exact absurd h (by simp)
        case h_1 fields =>
          split at h
          case h_1 => exact absurd h (by simp)
          case h_2 assets hassets =>
            split at h
            case h_1 => exact absurd h (by simp)
            case h_2 st hrun =>
              injection h with h1 h2 h3 h4
              exact ⟨assetsJ, content, fields, assets, st, haj, hcontent, hmanifest, hassets,
                hrun, h2.symm, h3.symm, h4.symm, h1.symm⟩

/-- Forward evaluation of a successful run from its ingredients. -/
theorem pymain_success_intro (parse : Str → Option Json) (a0 vf aj ad : Str) (r : List Str)
    (tfs : List (Str × Str)) (bfs : List (Str × List Nat))
    (assetsJ : Json) (content : Str) (fields : List (Str × Json)) (assets : List Json)
    (st : LoopSt)
    (h1 : parse aj = some assetsJ)
    (h2 : alookup tfs vf = some content)
    (h3 : parse content = some (.obj fields))
    (h4 : assetsListOf assetsJ = some assets)
    (h5 : runAssets bfs ad assets
        ⟨(alookup (ensureP fields) platformsKey).getD (.obj []), 0,
          [.updating (alookup fields versionKey)]⟩ = .ok st) :
    pymain parse (a0 :: vf :: aj :: ad :: r) tfs bfs
      = .success (st.log ++ [.summary st.count]) vf
          (.obj (upsertJ (ensureP fields) platformsKey st.platforms)) st.count := by
  unfold pymain
  rw [if_neg (by simp)]
  simp only [List.getElem?_cons_zero, List.getElem?_cons_succ, h1, h2, h3, h4, h5]

/-- C2: running the tool a second time on the file it just wrote (same
arguments, same assets, same artifact files; the manifest file now holds the
first run's output, and `parse` round-trips that output) writes the same path
and byte-for-byte the same manifest content as the first run. -/
theorem run_twice_idempotent (parse : Str → Option Json) (a0 vf aj ad : Str) (r : List Str)
    (tfs : List (Str × Str)) (bfs : List (Str × List Nat))
    (log1 : List LogLine) (p : Str) (m1 : Json) (n1 : Nat)
    (h1 : pymain parse (a0 :: vf :: aj :: ad :: r) tfs bfs = .success log1 p m1 n1)
    (hrt : parse (fileContent m1) = some m1) :
    resultFile (pymain parse (a0 :: vf :: aj :: ad :: r) ((p, fileContent m1) :: tfs) bfs)
      = resultFile (pymain parse (a0 :: vf :: aj :: ad :: r) tfs bfs) := by
  obtain ⟨assetsJ, content, fields, assets, st1, haj, hcontent, hfields, hassets, hrun,
    rfl, hm, hn, hlog⟩ := pymain_success_inv parse a0 vf aj ad r tfs bfs log1 p m1 n1 h1
  have hnc := runAssets_no_crash bfs ad assets _ _ hrun
  -- the manifest written by run 1
  have hens : ensureP (upsertJ (ensureP fields) platformsKey st1.platforms)
      = upsertJ (ensureP fields) platformsKey st1.platforms := by
    unfold ensureP
    rw [if_pos (hasKey_upsert_self _ _ _)]
  have hlook : (alookup (ensureP (upsertJ (ensureP fields) platformsKey st1.platforms))
      platformsKey).getD (.obj []) = st1.platforms := by
    rw [hens, alookup_upsert_self]
    rfl
  -- the second run's loop reproduces st1.platforms
  have hloop2 : ∃ st2 : LoopSt, st2.platforms = st1.platforms
      ∧ runAssets bfs ad assets
          ⟨st1.platforms, 0,
            [.updating (alookup (upsertJ (ensureP fields) platformsKey st1.platforms)
              versionKey)]⟩ = .ok st2 := by
    by_cases hobj : ∃ fl, (alookup (ensureP fields) platformsKey).getD (.obj []) = Json.obj fl
    · obtain ⟨P0, hP0⟩ := hobj
      rw [hP0] at hrun
      rw [runAssets_eval bfs ad assets P0 0 _ hnc] at hrun
      injection hrun with hst1
      have hplat : st1.platforms = .obj (applyU P0 (putsOf bfs ad assets)) := by
        rw [← hst1]
      have hrunB := runAssets_eval bfs ad assets (applyU P0 (putsOf bfs ad assets)) 0
        [LogLine.updating (alookup (upsertJ (ensureP fields) platformsKey st1.platforms)
          versionKey)] hnc
      rw [← hplat] at hrunB
      refine ⟨_, ?_, hrunB⟩
      show Json.obj (applyU (applyU P0 (putsOf bfs ad assets)) (putsOf bfs ad assets))
        = st1.platforms
      rw [applyU_idem, ← hplat]
    · have hno : ∀ fl, (alookup (ensureP fields) platformsKey).getD (.obj []) ≠ Json.obj fl :=
        fun fl hfl => hobj ⟨fl, hfl⟩
      obtain ⟨hst1, hputs⟩ := runAssets_nonobj bfs ad assets _ 0 _ _ hno hrun
      have hplat : st1.platforms = (alookup (ensureP fields) platformsKey).getD (.obj []) := by
        rw [hst1]
      refine ⟨_, ?_, runAssets_no_puts bfs ad assets st1.platforms 0 _ hnc hputs⟩
      rfl
  obtain ⟨st2, hst2plat, hst2⟩ := hloop2
  -- evaluate the second run
  have hrun2 := pymain_success_intro parse a0 p aj ad r ((p, fileContent m1) :: tfs) bfs
    assetsJ (fileContent m1) (upsertJ (ensureP fields) platformsKey st1.platforms) assets st2
    haj
    (by
      show (if p = p then some (fileContent m1) else alookup tfs p) = _
      rw [if_pos rfl])
    (by rw [hrt, hm])
    hassets
    (by
      rw [hlook]
      exact hst2)
  rw [hrun2, h1]
  show some _ = some _
  refine congrArg _ (congrArg _ ?_)
  refine congrArg fileContent ?_
  rw [hens, hst2plat, hm]
  exact congrArg Json.obj (upsert_idem _ _ _)

/-- C2 witness: a concrete first run (empty assets list, manifest `{}`),
whose output file is then fed to a second run. -/
theorem run_twice_idempotent_witness :
    resultFile (pymain
        (fun s => if s = "[]".toList then some (Json.arr [])
          else if s = "M".toList then some (Json.obj [])
          else some (Json.obj [(platformsKey, Json.obj [])]))
        ["update_manifest.py".toList, "v.json".toList, "[]".toList, "dist".toList]
        (("v.json".toList, fileContent (Json.obj [(platformsKey, Json.obj [])]))
          :: [("v.json".toList, "M".toList)]) [])
      = resultFile (pymain
          (fun s => if s = "[]".toList then some (Json.arr [])
            else if s = "M".toList then some (Json.obj [])
            else some (Json.obj [(platformsKey, Json.obj [])]))
          ["update_manifest.py".toList, "v.json".toList, "[]".toList, "dist".toList]
          [("v.json".toList, "M".toList)] []) :=
  run_twice_idempotent
    (fun s => if s = "[]".toList then some (Json.arr [])
      else if s = "M".toList then some (Json.obj [])
      else some (Json.obj [(platformsKey, Json.obj [])]))
    ("update_manifest.py".toList) ("v.json".toList) ("[]".toList) ("dist".toList) []
    [("v.json".toList, "M".toList)] []
    [.updating none, .summary 0] ("v.json".toList) (Json.obj [(platformsKey, Json.obj [])]) 0
    rfl rfl

/-! ## Frame lemmas: fields other than `platforms` -/

/-- The entries of an association list whose key is not `k`, in order. -/
def eraseKey {α : Type} (l : List (Str × α)) (k : Str) : List (Str × α) :=
  l.filter (fun e => e.1 ≠ k)

theorem eraseKey_map_subst1 {α : Type} (F : List (Str × α)) (k : Str) (v : α) :
    eraseKey (F.map (subst1 k v)) k = eraseKey F k := by
  unfold eraseKey
  induction F with
  | nil => rfl
  | cons e t ih =>
    rw [List.map_cons, List.filter_cons, List.filter_cons]
    by_cases h : e.1 = k
    · have h1 : subst1 k v e = (k, v) := by
        unfold subst1
        rw [if_pos h]
      rw [h1, if_neg (by simp), if_neg (by simp [h]), ih]
    · have h1 : subst1 k v e = e := by
        unfold subst1
        rw [if_neg h]
      rw [h1, if_pos (by simp [h]), if_pos (by simp [h]), ih]

theorem eraseKey_append {α : Type} (F G : List (Str × α)) (k : Str) :
    eraseKey (F ++ G) k = eraseKey F k ++ eraseKey G k := by
  unfold eraseKey
  rw [List.filter_append]

theorem eraseKey_upsert {α : Type} (F : List (Str × α)) (k : Str) (v : α) :
    eraseKey (upsertJ F k v) k = eraseKey F k := by
  by_cases h : k ∈ keysOf F
  · rw [upsert_inplace F k v h, eraseKey_map_subst1]
  · rw [upsert_append F k v h, eraseKey_append]
    show eraseKey F k ++ List.filter _ [(k, v)] = eraseKey F k
    rw [List.filter_cons]
    rw [if_neg (by simp)]
    simp

theorem eraseKey_ensureP (F : List (Str × Json)) :
    eraseKey (ensureP F) platformsKey = eraseKey F platformsKey := by
  unfold ensureP
  by_cases h : hasKey F platformsKey
  · rw [if_pos h]
  · rw [if_neg h, eraseKey_append]
    show eraseKey F platformsKey ++ List.filter _ [(platformsKey, Json.obj [])] = _
    rw [List.filter_cons]
    rw [if_neg (by simp)]
    simp

theorem alookup_eraseKey_ne {α : Type} (l : List (Str × α)) (k x : Str) (h : x ≠ k) :
    alookup (eraseKey l k) x = alookup l x := by
  unfold eraseKey
  induction l with
  | nil => rfl
  | cons e t ih =>
    rw [List.filter_cons]
    by_cases h2 : e.1 = k
    · rw [if_neg (by simp [h2])]
      show _ = (if e.1 = x then some e.2 else alookup t x)
      rw [if_neg (fun h3 : e.1 = x => h (h3 ▸ h2))]
      exact ih
    · rw [if_pos (by simp [h2])]
      show (if e.1 = x then some e.2 else alookup (t.filter (fun e => decide (e.1 ≠ k))) x)
        = (if e.1 = x then some e.2 else alookup t x)
      by_cases h3 : e.1 = x
      · rw [if_pos h3, if_pos h3]
      · rw [if_neg h3, if_neg h3]
        exact ih

/-- C8: on every successful run, the output manifest agrees with the loaded
input manifest on the `version` field and on the entire ordered sequence of
top-level fields other than `platforms`: only the `platforms` mapping is
modified (or appended when absent). -/
theorem preserves_other_fields (parse : Str → Option Json) (a0 vf aj ad : Str) (r : List Str)
    (tfs : List (Str × Str)) (bfs : List (Str × List Nat))
    (log : List LogLine) (p : Str) (mOut : Json) (n : Nat)
    (content : Str) (fieldsIn : List (Str × Json))
    (hc : alookup tfs vf = some content)
    (hm : parse content = some (.obj fieldsIn))
    (hrun : pymain parse (a0 :: vf :: aj :: ad :: r) tfs bfs = .success log p mOut n) :
    ∃ fieldsOut, mOut = .obj fieldsOut
      ∧ eraseKey fieldsOut platformsKey = eraseKey fieldsIn platformsKey
      ∧ alookup fieldsOut versionKey = alookup fieldsIn versionKey := by
  obtain ⟨assetsJ, content', fields', assets, st, haj, hcontent, hfields, hassets, hrun2,
    hp, hmOut, hn, hlog⟩ := pymain_success_inv parse a0 vf aj ad r tfs bfs log p mOut n hrun
  rw [hc] at hcontent
  injection hcontent with hceq
  rw [hceq] at hm
  rw [hfields] at hm
  injection hm with hm2
  have hfeq : fields' = fieldsIn := by
    injection hm2
  subst hfeq
  refine ⟨upsertJ (ensureP fields') platformsKey st.platforms, hmOut, ?_, ?_⟩
  · rw [eraseKey_upsert, eraseKey_ensureP]
  · have hne : versionKey ≠ platformsKey := by decide
    rw [← alookup_eraseKey_ne (upsertJ (ensureP fields') platformsKey st.platforms)
        platformsKey versionKey hne,
      eraseKey_upsert, eraseKey_ensureP,
      alookup_eraseKey_ne fields' platformsKey versionKey hne]

/-- C8 witness: manifest `{"version": "1.2.0"}`, empty assets. -/
theorem preserves_other_fields_witness :
    ∃ fieldsOut,
      Json.obj [(versionKey, .str ("1.2.0".toList)), (platformsKey, .obj [])]
        = .obj fieldsOut
      ∧ eraseKey fieldsOut platformsKey
          = eraseKey [(versionKey, Json.str ("1.2.0".toList))] platformsKey
      ∧ alookup fieldsOut versionKey
          = alookup [(versionKey, Json.str ("1.2.0".toList))] versionKey :=
  preserves_other_fields
    (fun s => if s = "[]".toList then some (.arr [])
      else if s = "M".toList then some (.obj [(versionKey, .str ("1.2.0".toList))])
      else none)
    ("update_manifest.py".toList) ("v.json".toList) ("[]".toList) ("dist".toList) []
    [("v.json".toList, "M".toList)] []
    [.updating (some (.str ("1.2.0".toList))), .summary 0] ("v.json".toList)
    (.obj [(versionKey, .str ("1.2.0".toList)), (platformsKey, .obj [])]) 0
    ("M".toList) [(versionKey, .str ("1.2.0".toList))]
    rfl rfl rfl

/-! ## The write format -/

theorem natDigs_last (n : Nat) :
    ∃ c, (natDigs n).getLast? = some c ∧ c ∈ hexDigits := by
  show ∃ c, (if n < 10 then [nibble n]
    else natDigsGo n (n / 10) ++ [nibble (n % 10)]).getLast? = some c ∧ c ∈ hexDigits
  by_cases h : n < 10
  · rw [if_pos h]
    exact ⟨nibble n, rfl, nibble_mem n⟩
  · rw [if_neg h]
    exact ⟨nibble (n % 10), List.getLast?_concat _, nibble_mem _⟩

theorem natDigs_ne_nil (n : Nat) : natDigs n ≠ [] := by
  show (if n < 10 then [nibble n] else natDigsGo n (n / 10) ++ [nibble (n % 10)]) ≠ []
  by_cases h : n < 10
  · rw [if_pos h]
    simp
  · rw [if_neg h]
    simp

theorem intStr_last (i : Int) :
    ∃ c, (intStr i).getLast? = some c ∧ c ∈ hexDigits := by
  unfold intStr
  by_cases h : i < 0
  · rw [if_pos h]
    obtain ⟨c, hc, hmem⟩ := natDigs_last i.natAbs
    refine ⟨c, ?_, hmem⟩
    rw [show ('-' :: natDigs i.natAbs) = ['-'] ++ natDigs i.natAbs from rfl,
      List.getLast?_append_of_ne_nil _ (natDigs_ne_nil i.natAbs)]
    exact hc
  · rw [if_neg h]
    exact natDigs_last _

/-- The serialized form of a JSON value never ends in a newline: its last
character is a closing bracket, a quote, a digit, or a keyword letter. -/
theorem dumpJ_last_ne_newline (ind : Nat) (j : Json) :
    (dumpJ ind j).getLast? ≠ some '\n' := by
  cases j with
  | null =>
    show (['n', 'u', 'l', 'l'] : Str).getLast? ≠ some '\n'
    decide
  | bool b =>
    cases b
    · show (['f', 'a', 'l', 's', 'e'] : Str).getLast? ≠ some '\n'
      decide
    · show (['t', 'r', 'u', 'e'] : Str).getLast? ≠ some '\n'
      decide
  | num i =>
    obtain ⟨c, hc, hmem⟩ := intStr_last i
    show (intStr i).getLast? ≠ some '\n'
    rw [hc]
    intro h2
    injection h2 with h3
    exact absurd (h3 ▸ hmem) (by decide)
  | str s =>
    show ('"' :: (s.flatMap escChar ++ ['"'])).getLast? ≠ some '\n'
    rw [show ('"' :: (s.flatMap escChar ++ ['"'])) = ('"' :: s.flatMap escChar) ++ ['"'] by simp,
      List.getLast?_concat]
    decide
  | arr xs =>
    cases xs with
    | nil =>
      show (['[', ']'] : Str).getLast? ≠ some '\n'
      decide
    | cons x t =>
      show ('[' :: '\n' :: (dumpArrItems (ind + 4) (x :: t) ++ '\n' :: (nSpaces ind ++ [']']))).getLast?
        ≠ some '\n'
      rw [show ('[' :: '\n' :: (dumpArrItems (ind + 4) (x :: t) ++ '\n' :: (nSpaces ind ++ [']'])))
          = ('[' :: '\n' :: (dumpArrItems (ind + 4) (x :: t) ++ '\n' :: nSpaces ind)) ++ [']'] by
        simp, List.getLast?_concat]
      decide
  | obj fs =>
    cases fs with
    | nil =>
      show (['\x7b', '\x7d'] : Str).getLast? ≠ some '\n'
      decide
    | cons f t =>
      show ('\x7b' :: '\n' :: (dumpObjItems (ind + 4) (f :: t) ++ '\n' :: (nSpaces ind ++ ['\x7d']))).getLast?
        ≠ some '\n'
      rw [show ('\x7b' :: '\n' :: (dumpObjItems (ind + 4) (f :: t) ++ '\n' :: (nSpaces ind ++ ['\x7d'])))
          = ('\x7b' :: '\n' :: (dumpObjItems (ind + 4) (f :: t) ++ '\n' :: nSpaces ind)) ++ ['\x7d'] by
        simp, List.getLast?_concat]
      decide

/-- C9: every successful run writes to the very path the manifest was loaded
from (`sys.argv[1]`), and the file content is the `indent=4` serialization of
the manifest followed by exactly one trailing newline: the content ends in a
newline which the serialized JSON itself never does. -/
theorem manifest_write_format (parse : Str → Option Json) (a0 vf aj ad : Str) (r : List Str)
    (tfs : List (Str × Str)) (bfs : List (Str × List Nat))
    (log : List LogLine) (p : Str) (m : Json) (n : Nat)
    (hrun : pymain parse (a0 :: vf :: aj :: ad :: r) tfs bfs = .success log p m n) :
    p = vf
    ∧ resultFile (pymain parse (a0 :: vf :: aj :: ad :: r) tfs bfs)
        = some (vf, pyDumps m ++ ['\n'])
    ∧ (pyDumps m ++ ['\n']).getLast? = some '\n'
    ∧ (pyDumps m).getLast? ≠ some '\n' := by
  obtain ⟨_, _, _, _, _, _, _, _, _, _, hp, _, _, _⟩ :=
    pymain_success_inv parse a0 vf aj ad r tfs bfs log p m n hrun
  refine ⟨hp, ?_, List.getLast?_concat _, dumpJ_last_ne_newline 0 m⟩
  rw [hrun, hp]
  rfl

/-- C9 witness. -/
theorem manifest_write_format_witness :
    ("v.json".toList : Str) = "v.json".toList
    ∧ resultFile (pymain
        (fun s => if s = "[]".toList then some (.arr [])
          else if s = "M".toList then some (.obj []) else none)
        ["update_manifest.py".toList, "v.json".toList, "[]".toList, "dist".toList]
        [("v.json".toList, "M".toList)] [])
      = some ("v.json".toList, pyDumps (.obj [(platformsKey, .obj [])]) ++ ['\n'])
    ∧ (pyDumps (Json.obj [(platformsKey, .obj [])]) ++ ['\n']).getLast? = some '\n'
    ∧ (pyDumps (Json.obj [(platformsKey, .obj [])])).getLast? ≠ some '\n' :=
  manifest_write_format
    (fun s => if s = "[]".toList then some (.arr [])
      else if s = "M".toList then some (.obj []) else none)
    ("update_manifest.py".toList) ("v.json".toList) ("[]".toList) ("dist".toList) []
    [("v.json".toList, "M".toList)] []
    [.updating none, .summary 0] ("v.json".toList) (.obj [(platformsKey, .obj [])]) 0
    rfl

/-- End-to-end check mirroring the specification's worked example: manifest
`{"version": "1.2.0"}`, one binary asset whose artifact holds the bytes
`"abc"`, and a `sha256sums.txt` utility file.  The run hashes the binary,
skips the checksum list, and upserts exactly one platform entry. -/
example :
    pymain
      (fun s => if s = "A".toList then some (.arr
          [.obj [(nameKey, .str ("btxz-linux-amd64-modern".toList)),
            (urlKey, .str ("http://x/a".toList))],
           .obj [(nameKey, .str ("sha256sums.txt".toList)),
            (urlKey, .str ("http://x/b".toList))]])
        else if s = "M".toList then some (.obj [(versionKey, .str ("1.2.0".toList))])
        else none)
      ["update_manifest.py".toList, "v.json".toList, "A".toList, "dist".toList]
      [("v.json".toList, "M".toList)]
      [("dist/btxz-linux-amd64-modern".toList, [97, 98, 99])]
    = .success
        [.updating (some (.str ("1.2.0".toList))),
         .processed ("btxz-linux-amd64-modern".toList) ("linux-amd64-modern".toList),
         .skipUtility ("sha256sums.txt".toList),
         .summary 1]
        ("v.json".toList)
        (.obj [(versionKey, .str ("1.2.0".toList)),
          (platformsKey, .obj [("linux-amd64-modern".toList, .obj
            [(urlField, .str ("http://x/a".toList)),
             (shaField, .str ("ba7816bf8f01cfea414140de5dae2223b00361a396177a9cb410ff61f20015ad".toList))])])])
        1 := by
  rfl
